import Mathlib

/-!
Verification of the Deal Structure editable financial form (src/index.tsx).

The development shallowly embeds the core logic of the component:
the currency codec (`parseCurrencyInput`, the commit-time formatter, the
display-total formatter), the total calculator (`calculateTotal`), and the
per-field edit/save state machine (`handleFocus`, `handleFieldChange`,
`handleBlur` split into its synchronous part and the asynchronous commit
resolution).

Numeric values are modelled exactly: every number arising in the program is
the value of a decimal string, so a JavaScript number is embedded as a pair
`num / 10 ^ exp` (`Dec` below) with exact integer arithmetic.  The spec
explicitly disclaims exact binary-float rounding contracts ("callers must not
assume exact decimal rounding beyond this stated behavior"), and no claim
depends on a binary-versus-decimal half-way case; bridge lemmas relate the
`Dec` operations to the rational numbers they denote.
-/

namespace DealStructure

/-- Characters kept by the regex `[^0-9.]` replacement used in
`parseCurrencyInput` and in `calculateTotal`: decimal digits and the dot. -/
def isNumChar (c : Char) : Bool := c.isDigit || c = '.'

/-- Model of JavaScript `String.prototype.split('.')` on the character list:
returns the run before the first dot together with the list of runs between
subsequent dots.  `parts = fst :: snd` matches the JS array. -/
def splitOnDot : List Char → List Char × List (List Char)
  | [] => ([], [])
  | c :: rest =>
    if c = '.' then ([], (splitOnDot rest).1 :: (splitOnDot rest).2)
    else (c :: (splitOnDot rest).1, (splitOnDot rest).2)

/-- The dot-handling part of `parseCurrencyInput` on the already-stripped
character list: if more than one dot remains, keep the first dot and
concatenate everything after it (the JS `parts[0] + '.' +
parts.slice(1).join('')` branch); otherwise truncate the fractional part to
at most two digits. -/
def sanitizeCore (ns : List Char) : List Char :=
  match splitOnDot ns with
  | (_, []) => ns
  | (p0, [p1]) => if p1.length > 2 then p0 ++ '.' :: p1.take 2 else ns
  | (p0, rest) => p0 ++ '.' :: rest.flatten

/-- Embedding of `parseCurrencyInput` (src/index.tsx lines 134-148), the
sanitizer: strip every character outside `[0-9.]`, then collapse extra dots
or truncate the fractional run via `sanitizeCore`. -/
def parseCurrencyInput (input : String) : String :=
  ⟨sanitizeCore (input.data.filter isNumChar)⟩

/-- Length of the fractional run of a canonical string: what stands between
the first dot and the following dot (or the end). -/
def fracLen (cs : List Char) : Nat := ((splitOnDot cs).2.headD []).length

/-- Numeric value of a list of decimal digit characters, most significant
first (the value JS assigns to a digit run). -/
def natOfDigits (ds : List Char) : Nat :=
  ds.foldl (fun a c => a * 10 + (c.toNat - 48)) 0

/-- An exact decimal number: the value is `num / 10 ^ exp`.  Every number the
program manipulates is the value of a decimal string, so this represents it
exactly; `toRat` gives the denoted rational. -/
structure Dec where
  num : Int
  exp : Nat
deriving DecidableEq, Repr

/-- The rational number denoted by a `Dec`. -/
def Dec.toRat (d : Dec) : ℚ := d.num / 10 ^ d.exp

/-- The decimal zero, the value JS `parseFloat(x) || 0` falls back to. -/
def Dec.zero : Dec := ⟨0, 0⟩

/-- Exact addition of decimals. -/
def Dec.add (a b : Dec) : Dec :=
  ⟨a.num * 10 ^ b.exp + b.num * 10 ^ a.exp, a.exp + b.exp⟩

/-- Exact subtraction of decimals. -/
def Dec.sub (a b : Dec) : Dec := Dec.add a ⟨-b.num, b.exp⟩

/-- Comparison of decimals, used for the `numericValue < 10000` business
rule. -/
def Dec.blt (a b : Dec) : Bool := a.num * 10 ^ b.exp < b.num * 10 ^ a.exp

/-- Scaling a decimal by `10 ^ z`, the effect of a parsed exponent part. -/
def Dec.applyExp (d : Dec) (z : Int) : Dec :=
  if 0 ≤ z then ⟨d.num * 10 ^ z.toNat, d.exp⟩ else ⟨d.num, d.exp + z.natAbs⟩

/-- The digit run of an exponent part: `none` when no digit follows (then the
exponent part is not consumed by `parseFloat`). -/
def jsParseExpDigits (r : List Char) : Option Nat :=
  let ds := r.takeWhile Char.isDigit
  if ds.isEmpty then none else some (natOfDigits ds)

/-- Sign and digits of an exponent part after the `e`. -/
def jsParseExpTail : List Char → Option Int
  | '+' :: r => (jsParseExpDigits r).map (fun n => (n : Int))
  | '-' :: r => (jsParseExpDigits r).map (fun n => -(n : Int))
  | r => (jsParseExpDigits r).map (fun n => (n : Int))

/-- A leading `ExponentPart` of the `parseFloat` grammar: `e` or `E`, an
optional sign, and at least one digit; `none` when absent or incomplete. -/
def jsParseExp : List Char → Option Int
  | 'e' :: r => jsParseExpTail r
  | 'E' :: r => jsParseExpTail r
  | _ => none

/-- Applies the exponent part found at the head of `rest`, if any, to the
already-parsed mantissa. -/
def withExp (d : Dec) (rest : List Char) : Dec :=
  match jsParseExp rest with
  | none => d
  | some z => d.applyExp z

/-- Model of JavaScript `parseFloat` on a character list that carries no
leading whitespace (no input of this program has any): longest prefix of
digits, optionally followed by a dot and a further digit run, optionally
followed by an exponent part; `none` models `NaN` (no digit before or after
the leading dot). -/
def jsParseFloatCore (cs : List Char) : Option Dec :=
  let ip := cs.takeWhile Char.isDigit
  match cs.dropWhile Char.isDigit with
  | '.' :: r =>
    let fp := r.takeWhile Char.isDigit
    if ip.isEmpty && fp.isEmpty then none
    else some (withExp ⟨natOfDigits ip * 10 ^ fp.length + natOfDigits fp, fp.length⟩
      (r.dropWhile Char.isDigit))
  | rest => if ip.isEmpty then none else some (withExp ⟨natOfDigits ip, 0⟩ rest)

/-- Model of JavaScript `parseFloat` on strings: an optional sign followed by
the number grammar of `jsParseFloatCore`. -/
def jsParseFloat (s : String) : Option Dec :=
  match s.data with
  | '-' :: r => (jsParseFloatCore r).map (fun d => ⟨-d.num, d.exp⟩)
  | '+' :: r => jsParseFloatCore r
  | cs => jsParseFloatCore cs

/-- Embedding of `safeParseFloat` inside `calculateTotal` (src/index.tsx lines
151-154): strip everything outside `[0-9.]`, `parseFloat`, and treat `NaN` as
zero. -/
def safeParseFloat (s : String) : Dec :=
  (jsParseFloat ⟨s.data.filter isNumChar⟩).getD Dec.zero

/-- The digit character for `n % 10`. -/
def digitChar (n : Nat) : Char := Char.ofNat (48 + n % 10)

/-- Decimal digit characters of a natural number, most significant first,
with explicit fuel (the callers pass `n + 1`, which is always enough). -/
def natDecAux : Nat → Nat → List Char
  | 0, _ => []
  | fuel + 1, n =>
    if n < 10 then [digitChar n]
    else natDecAux fuel (n / 10) ++ [digitChar n]

/-- Decimal digit characters of a natural number, most significant first. -/
def natDigits (n : Nat) : List Char := natDecAux (n + 1) n

/-- A remainder modulo 100 printed on exactly two digits, as `toFixed(2)` and
the currency formatter print cents. -/
def padTwo (r : Nat) : List Char := [digitChar (r / 10), digitChar r]

/-- Number of cents of the absolute value of a decimal, rounded half away
from zero: `(roundCents d : ℤ) = ⌊|d.toRat| * 100 + 1 / 2⌋`, the rounding of
both `Number.prototype.toFixed(2)` and the `en-US` currency formatter at the
values this program produces. -/
def roundCents (d : Dec) : Nat :=
  (200 * d.num.natAbs + 10 ^ d.exp) / (2 * 10 ^ d.exp)

/-- Significand digits of an exponential-notation number string: the digit
list with its trailing zeros removed (and "0" when nothing remains). -/
def sigDigits (ds : List Char) : List Char :=
  if ((ds.reverse.dropWhile (fun c => c = '0')).reverse).isEmpty then ['0']
  else (ds.reverse.dropWhile (fun c => c = '0')).reverse

/-- Model of ECMAScript `ToString` on the number `m / 10 ^ exp` in the range
where `toFixed` falls back to it (at least `10 ^ 21`, so the exponent is
nonnegative): significand digits, `e+`, decimal exponent.  The significand is
computed from the exact decimal value; the binary64 shortest-digit selection
can emit different significand digits for values that are not exactly
representable as doubles, which no claim inspects — the claims reach this
branch only at the exactly representable `10 ^ 21`. -/
def toStringExpCore (m exp : Nat) : List Char :=
  match sigDigits (natDigits m) with
  | [c] => c :: 'e' :: '+' :: natDigits ((natDigits m).length - 1 - exp)
  | c :: rest => c :: '.' :: rest ++ 'e' :: '+' :: natDigits ((natDigits m).length - 1 - exp)
  | [] => []

/-- Model of `Number.prototype.toFixed(2)`: sign of the value, then — for
magnitudes below `10 ^ 21` — the integer cents split as integer part, dot,
two fractional digits, never grouped; at or above `10 ^ 21` ECMAScript
`toFixed` returns `ToString` of the value instead, in exponential
notation. -/
def toFixed2 (d : Dec) : String :=
  let m := roundCents d
  let core :=
    if 10 ^ (21 + d.exp) ≤ d.num.natAbs then toStringExpCore d.num.natAbs d.exp
    else natDigits (m / 100) ++ '.' :: padTwo (m % 100)
  if d.num < 0 then ⟨'-' :: core⟩ else ⟨core⟩

/-- Embedding of the commit-time formatter `(parseFloat(currentValue) || 0)
.toFixed(2)` (src/index.tsx line 182): unparsable input (and zero) collapses
to the decimal zero. -/
def commitFormat (s : String) : String :=
  toFixed2 ((jsParseFloat s).getD Dec.zero)

/-- Inserts a comma after every third character, counting from the end of the
(reversed) digit list: helper for the thousands grouping of the `en-US`
currency format. -/
def groupAux : List Char → Nat → List Char
  | [], _ => []
  | c :: rest, i =>
    if i = 3 then ',' :: c :: groupAux rest 1
    else c :: groupAux rest (i + 1)

/-- Thousands grouping of a digit list (most significant first): runs of
three from the right, separated by commas. -/
def groupDigits (ds : List Char) : List Char := (groupAux ds.reverse 0).reverse

/-- Model of `total.toLocaleString('en-US', { style: 'currency', currency:
'USD' })`: currency symbol (preceded by a minus sign for negative values),
grouped integer part, and exactly two fractional digits, rounded half away
from zero. -/
def formatUSD (d : Dec) : String :=
  let m := roundCents d
  let core := groupDigits (natDigits (m / 100)) ++ '.' :: padTwo (m % 100)
  if d.num < 0 then ⟨'-' :: '$' :: core⟩ else ⟨'$' :: core⟩

/-- The five field identifiers of the form. -/
inductive FieldKey
  | salesPrice
  | downPayment
  | warranty
  | cpi
  | gap
deriving DecidableEq, Repr

/-- Per-field state, as stored in the `fields` React state object: the
canonical value string plus the saving and error flags. -/
structure FieldState where
  value : String
  isSaving : Bool
  hasError : Bool
deriving DecidableEq, Repr

/-- The `fields` state object (src/index.tsx lines 109-115). -/
structure Fields where
  salesPrice : FieldState
  downPayment : FieldState
  warranty : FieldState
  cpi : FieldState
  gap : FieldState
deriving DecidableEq, Repr

/-- Dynamic lookup `fields[key]`. -/
def Fields.get (f : Fields) : FieldKey → FieldState
  | .salesPrice => f.salesPrice
  | .downPayment => f.downPayment
  | .warranty => f.warranty
  | .cpi => f.cpi
  | .gap => f.gap

/-- Dynamic update `{ ...fields, [key]: v }`. -/
def Fields.set (f : Fields) (k : FieldKey) (v : FieldState) : Fields :=
  match k with
  | .salesPrice => { f with salesPrice := v }
  | .downPayment => { f with downPayment := v }
  | .warranty => { f with warranty := v }
  | .cpi => { f with cpi := v }
  | .gap => { f with gap := v }

/-- Embedding of `calculateTotal` (src/index.tsx lines 150-164): the
tolerant-parsed values combined as salesPrice − downPayment + warranty + cpi
+ gap and formatted as `en-US` USD currency. -/
def calculateTotal (f : Fields) : String :=
  formatUSD
    ((((Dec.sub (safeParseFloat f.salesPrice.value)
          (safeParseFloat f.downPayment.value)).add
        (safeParseFloat f.warranty.value)).add
      (safeParseFloat f.cpi.value)).add
    (safeParseFloat f.gap.value))

/-- The whole component state: the `fields` object, the published
`amountFinanced` string, the single shared `originalValueRef`, and the list
of in-flight commits (field key and the `formattedValue` each async
`handleBlur` continuation closed over). -/
structure AppState where
  fields : Fields
  amountFinanced : String
  originalValueRef : Option String
  pending : List (FieldKey × String)
deriving DecidableEq, Repr

/-- Embedding of `handleFocus` (src/index.tsx lines 168-170): store the
focused field's current value in the shared ref. -/
def handleFocus (k : FieldKey) (s : AppState) : AppState :=
  { s with originalValueRef := some ((s.fields.get k).value) }

/-- Embedding of `handleFieldChange` (src/index.tsx lines 172-178): sanitize
the raw text, store it, and clear the error flag. -/
def handleFieldChange (k : FieldKey) (raw : String) (s : AppState) : AppState :=
  { s with
    fields := s.fields.set k
      { s.fields.get k with value := parseCurrencyInput raw, hasError := false } }

/-- Embedding of the synchronous part of `handleBlur` (src/index.tsx lines
180-196): format the current value; if it equals the focus-time snapshot,
only reformat the stored value when it differs textually and issue no commit;
otherwise store the formatted value, raise `isSaving`, clear `hasError`, and
put a commit in flight. -/
def handleBlurStart (k : FieldKey) (s : AppState) : AppState :=
  let currentValue := (s.fields.get k).value
  let formattedValue := commitFormat currentValue
  if some formattedValue = s.originalValueRef then
    if currentValue ≠ formattedValue then
      { s with fields := s.fields.set k { s.fields.get k with value := formattedValue } }
    else s
  else
    { s with
      fields := s.fields.set k
        { s.fields.get k with value := formattedValue, isSaving := true, hasError := false },
      pending := s.pending ++ [(k, formattedValue)] }

/-- Embedding of the simulated remote save's rejection condition
(src/index.tsx lines 202-210): throw when `parseFloat(formattedValue)` is
`NaN`, or when the field is `salesPrice` and the numeric value is below
10000. -/
def saveRejects (k : FieldKey) (formattedValue : String) : Bool :=
  match jsParseFloat formattedValue with
  | none => true
  | some d => decide (k = FieldKey.salesPrice) && Dec.blt d ⟨10000, 0⟩

/-- Embedding of the asynchronous continuation of `handleBlur` (src/index.tsx
lines 198-226): on success lower the flags and recompute `amountFinanced`
over the updated fields; on failure store the attempted `formattedValue` with
the error flag raised, leaving the total untouched. -/
def resolveCommit (k : FieldKey) (formattedValue : String) (s : AppState) : AppState :=
  if saveRejects k formattedValue then
    { s with
      fields := s.fields.set k
        { s.fields.get k with value := formattedValue, isSaving := false, hasError := true } }
  else
    let updatedFields := s.fields.set k
      { s.fields.get k with isSaving := false, hasError := false }
    { s with fields := updatedFields, amountFinanced := calculateTotal updatedFields }

/-- The observable events of the component: focus, change and blur of a
field, and the completion of the i-th in-flight commit (commits may complete
in any order, so the index is arbitrary). -/
inductive Event
  | focus (k : FieldKey)
  | change (k : FieldKey) (raw : String)
  | blur (k : FieldKey)
  | resolve (i : Nat)

/-- One step of the component: dispatch an event against the current state.
A `resolve` of an index with no in-flight commit is a no-op. -/
def step (s : AppState) (e : Event) : AppState :=
  match e with
  | .focus k => handleFocus k s
  | .change k raw => handleFieldChange k raw s
  | .blur k => handleBlurStart k s
  | .resolve i =>
    match s.pending.get? i with
    | none => s
    | some (k, fv) => resolveCommit k fv { s with pending := s.pending.eraseIdx i }

/-- Iterated stepping over an event list. -/
def run (s : AppState) (es : List Event) : AppState := es.foldl step s

/-- The initial `fields` object (src/index.tsx lines 109-115). -/
def initialFields : Fields :=
  { salesPrice := ⟨"27537.00", false, false⟩
    downPayment := ⟨"2500.00", false, false⟩
    warranty := ⟨"0.00", false, false⟩
    cpi := ⟨"0.00", false, false⟩
    gap := ⟨"0.00", false, false⟩ }

/-- The initial component state: `amountFinanced` is computed once from the
initial fields (src/index.tsx line 166), the ref starts `null`, nothing is in
flight. -/
def initState : AppState :=
  { fields := initialFields
    amountFinanced := calculateTotal initialFields
    originalValueRef := none
    pending := [] }

/-! ### Structure of `splitOnDot`

The JS `split('.')` call satisfies: the parts reassemble to the input, no
part contains a dot, and the number of parts past the first equals the number
of dots. -/

theorem splitOnDot_flatten (cs : List Char) :
    (splitOnDot cs).1 ++ ((splitOnDot cs).2.map (List.cons '.')).flatten = cs := by
  induction cs with
  | nil => rfl
  | cons c rest ih =>
    by_cases h : c = '.'
    · subst h
      simp [splitOnDot, ih]
    · simp [splitOnDot, h, ih]

theorem splitOnDot_not_mem_fst (cs : List Char) : '.' ∉ (splitOnDot cs).1 := by
  induction cs with
  | nil => simp [splitOnDot]
  | cons c rest ih =>
    by_cases h : c = '.'
    · subst h; simp [splitOnDot]
    · simp only [splitOnDot, if_neg h, List.mem_cons, not_or]
      exact ⟨fun hc => h hc.symm, ih⟩

theorem splitOnDot_not_mem_snd (cs : List Char) : ∀ p ∈ (splitOnDot cs).2, '.' ∉ p := by
  induction cs with
  | nil => simp [splitOnDot]
  | cons c rest ih =>
    intro p hp
    by_cases h : c = '.'
    · subst h
      have hs : splitOnDot ('.' :: rest) = ([], (splitOnDot rest).1 :: (splitOnDot rest).2) := by
        simp [splitOnDot]
      rw [hs] at hp
      rcases List.mem_cons.mp hp with h1 | h2
      · subst h1; exact splitOnDot_not_mem_fst rest
      · exact ih p h2
    · have hs : splitOnDot (c :: rest) = (c :: (splitOnDot rest).1, (splitOnDot rest).2) := by
        simp [splitOnDot, h]
      rw [hs] at hp
      exact ih p hp

theorem splitOnDot_snd_length (cs : List Char) :
    (splitOnDot cs).2.length = cs.count '.' := by
  induction cs with
  | nil => simp [splitOnDot]
  | cons c rest ih =>
    by_cases h : c = '.'
    · subst h; simp [splitOnDot, ih, List.count_cons]
    · simp [splitOnDot, h, ih, List.count_cons, Ne.symm h]

theorem splitOnDot_of_not_mem {cs : List Char} (h : '.' ∉ cs) : splitOnDot cs = (cs, []) := by
  induction cs with
  | nil => rfl
  | cons c rest ih =>
    simp only [List.mem_cons, not_or] at h
    have hc : ¬c = '.' := fun hh => h.1 hh.symm
    simp [splitOnDot, hc, ih h.2]

theorem splitOnDot_append {a : List Char} (b : List Char) (ha : '.' ∉ a) :
    splitOnDot (a ++ '.' :: b) = (a, (splitOnDot b).1 :: (splitOnDot b).2) := by
  induction a with
  | nil => simp [splitOnDot]
  | cons c a' ih =>
    simp only [List.mem_cons, not_or] at ha
    have hc : ¬c = '.' := fun hh => ha.1 hh.symm
    simp [splitOnDot, hc, ih ha.2]

theorem mem_of_mem_splitOnDot_fst {cs : List Char} {c : Char}
    (h : c ∈ (splitOnDot cs).1) : c ∈ cs := by
  rw [← splitOnDot_flatten cs]
  exact List.mem_append_left _ h

theorem mem_of_mem_splitOnDot_snd {cs p : List Char} {c : Char}
    (hp : p ∈ (splitOnDot cs).2) (h : c ∈ p) : c ∈ cs := by
  rw [← splitOnDot_flatten cs]
  refine List.mem_append_right _ (List.mem_flatten.mpr ⟨'.' :: p, ?_, List.mem_cons_of_mem _ h⟩)
  exact List.mem_map_of_mem _ hp

/-! ### Characterization of the sanitizer -/

/-- The three computation paths of `sanitizeCore`, with the facts each one
guarantees. -/
theorem sanitizeCore_cases (ns : List Char) :
    (sanitizeCore ns = ns ∧ (splitOnDot ns).2.length ≤ 1 ∧
      ((splitOnDot ns).2.headD []).length ≤ 2) ∨
    (∃ p0 p1, splitOnDot ns = (p0, [p1]) ∧ 2 < p1.length ∧
      sanitizeCore ns = p0 ++ '.' :: p1.take 2) ∨
    (∃ p0 p1 p2 rest, splitOnDot ns = (p0, p1 :: p2 :: rest) ∧
      sanitizeCore ns = p0 ++ '.' :: (p1 :: p2 :: rest).flatten) := by
  unfold sanitizeCore
  split
  case _ fst heq =>
    left
    refine ⟨rfl, ?_, ?_⟩ <;> rw [heq] <;> simp
  case _ p0 p1 heq =>
    by_cases h : p1.length > 2
    · right; left
      exact ⟨p0, p1, heq, h, if_pos h⟩
    · left
      refine ⟨if_neg h, ?_, ?_⟩ <;> rw [heq] <;> simp
      omega
  case _ p0 rest h1 h2 heq =>
    rcases rest with - | ⟨p1, - | ⟨p2, rest⟩⟩
    · exact absurd rfl h1
    · exact absurd rfl (h2 p1)
    · right; right
      exact ⟨p0, p1, p2, rest, heq, rfl⟩

/-- Every character of the sanitized list is a character of the input or the
dot. -/
theorem mem_sanitizeCore {ns : List Char} {c : Char} (hc : c ∈ sanitizeCore ns) :
    c ∈ ns ∨ c = '.' := by
  have hfst := splitOnDot_not_mem_fst ns
  have hsnd := splitOnDot_not_mem_snd ns
  rcases sanitizeCore_cases ns with ⟨he, -, -⟩ | ⟨p0, p1, heq, -, he⟩ |
      ⟨p0, p1, p2, rest, heq, he⟩
  · rw [he] at hc; exact Or.inl hc
  · rw [he] at hc
    rcases List.mem_append.mp hc with h0 | h1
    · refine Or.inl (mem_of_mem_splitOnDot_fst ?_)
      rw [heq]; exact h0
    · rcases List.mem_cons.mp h1 with rfl | h2
      · exact Or.inr rfl
      · refine Or.inl (mem_of_mem_splitOnDot_snd (p := p1) ?_ ?_)
        · rw [heq]; exact List.mem_cons_self _ _
        · exact (List.take_sublist 2 p1).subset h2
  · rw [he] at hc
    rcases List.mem_append.mp hc with h0 | h1
    · refine Or.inl (mem_of_mem_splitOnDot_fst ?_)
      rw [heq]; exact h0
    · rcases List.mem_cons.mp h1 with rfl | h2
      · exact Or.inr rfl
      · rcases List.mem_flatten.mp h2 with ⟨p, hp, hcp⟩
        refine Or.inl (mem_of_mem_splitOnDot_snd (p := p) ?_ hcp)
        rw [heq]
        exact hp

/-- The sanitized list holds at most one dot. -/
theorem count_sanitizeCore (ns : List Char) : (sanitizeCore ns).count '.' ≤ 1 := by
  have hfst := splitOnDot_not_mem_fst ns
  have hsnd := splitOnDot_not_mem_snd ns
  rcases sanitizeCore_cases ns with ⟨he, hlen, -⟩ | ⟨p0, p1, heq, -, he⟩ |
      ⟨p0, p1, p2, rest, heq, he⟩
  · rw [he, ← splitOnDot_snd_length]; exact hlen
  · rw [heq] at hfst hsnd
    have h0 : p0.count '.' = 0 := List.count_eq_zero.mpr hfst
    have h1 : (p1.take 2).count '.' = 0 := by
      refine List.count_eq_zero.mpr fun hm => ?_
      exact hsnd p1 (List.mem_cons_self _ _) ((List.take_sublist 2 p1).subset hm)
    rw [he]
    simp [List.count_append, List.count_cons, h0, h1]
  · rw [heq] at hfst hsnd
    have h0 : p0.count '.' = 0 := List.count_eq_zero.mpr hfst
    set fl := (p1 :: p2 :: rest).flatten with hfl
    have h1 : fl.count '.' = 0 := by
      refine List.count_eq_zero.mpr fun hm => ?_
      rw [hfl] at hm
      rcases List.mem_flatten.mp hm with ⟨p, hp, hcp⟩
      exact hsnd p hp hcp
    rw [he]
    simp [List.count_append, List.count_cons, h0, h1]

/-- When the stripped input has at most one dot, the sanitized fractional run
has at most two characters. -/
theorem fracLen_sanitizeCore {ns : List Char} (h : ns.count '.' ≤ 1) :
    fracLen (sanitizeCore ns) ≤ 2 := by
  have hlen : (splitOnDot ns).2.length ≤ 1 := by
    rw [splitOnDot_snd_length]; exact h
  have hfst := splitOnDot_not_mem_fst ns
  have hsnd := splitOnDot_not_mem_snd ns
  rcases sanitizeCore_cases ns with ⟨he, -, hfrac⟩ | ⟨p0, p1, heq, -, he⟩ |
      ⟨p0, p1, p2, rest, heq, he⟩
  · rw [he]; exact hfrac
  · rw [heq] at hfst hsnd
    have hp1 : '.' ∉ p1.take 2 := fun hm =>
      hsnd p1 (List.mem_cons_self _ _) ((List.take_sublist 2 p1).subset hm)
    rw [he]
    unfold fracLen
    rw [splitOnDot_append _ hfst, splitOnDot_of_not_mem hp1]
    simp [List.length_take]
  · rw [heq] at hlen
    simp at hlen

/-- A list with at most one dot and a fractional run of at most two
characters passes through `sanitizeCore` unchanged. -/
theorem sanitizeCore_eq_self {ws : List Char} (h1 : ws.count '.' ≤ 1)
    (h2 : fracLen ws ≤ 2) : sanitizeCore ws = ws := by
  have hlen : (splitOnDot ws).2.length ≤ 1 := by
    rw [splitOnDot_snd_length]; exact h1
  unfold sanitizeCore
  split
  case _ fst heq => rfl
  case _ p0 p1 heq =>
    have hfrac : p1.length ≤ 2 := by
      unfold fracLen at h2
      rw [heq] at h2
      simpa using h2
    rw [if_neg (by omega)]
  case _ p0 rest h1' h2' heq =>
    rcases rest with - | ⟨p1, - | ⟨p2, rest⟩⟩
    · exact absurd rfl h1'
    · exact absurd rfl (h2' p1)
    · rw [heq] at hlen
      simp at hlen

/-- Every character of the sanitizer's output is a digit or the dot. -/
theorem parseCurrencyInput_mem (s : String) :
    ∀ c ∈ (parseCurrencyInput s).data, isNumChar c = true := by
  intro c hc
  rcases mem_sanitizeCore hc with h | rfl
  · exact (List.mem_filter.mp h).2
  · rfl

/-- The sanitizer's output holds at most one dot. -/
theorem parseCurrencyInput_count (s : String) :
    (parseCurrencyInput s).data.count '.' ≤ 1 :=
  count_sanitizeCore _

/-- On inputs holding at most one dot, the sanitizer truncates the fractional
run to at most two characters. -/
theorem parseCurrencyInput_fracLen {s : String} (h : s.data.count '.' ≤ 1) :
    fracLen (parseCurrencyInput s).data ≤ 2 :=
  fracLen_sanitizeCore
    (le_trans ((List.filter_sublist (p := isNumChar) s.data).count_le '.') h)

/-- On inputs holding at most one dot, the sanitizer is idempotent. -/
theorem parseCurrencyInput_idem {s : String} (h : s.data.count '.' ≤ 1) :
    parseCurrencyInput (parseCurrencyInput s) = parseCurrencyInput s := by
  have hfilter : (parseCurrencyInput s).data.filter isNumChar = (parseCurrencyInput s).data :=
    List.filter_eq_self.mpr (parseCurrencyInput_mem s)
  show String.mk (sanitizeCore ((parseCurrencyInput s).data.filter isNumChar)) = _
  rw [hfilter, sanitizeCore_eq_self (parseCurrencyInput_count s) (parseCurrencyInput_fracLen h)]

/-! ### Shape of commit-formatted values -/

/-- Decides whether a character list matches the commit format, the regular
expression `^\d+\.\d\x7b2\x7d$`: a nonempty digit run, a dot, exactly two
digits. -/
def isMoneyShapeCore (cs : List Char) : Bool :=
  match cs.dropWhile Char.isDigit with
  | ['.', a, b] => !(cs.takeWhile Char.isDigit).isEmpty && a.isDigit && b.isDigit
  | _ => false

/-- Decides whether a string matches the commit format
`^\d+\.\d\x7b2\x7d$`. -/
def isMoneyShape (s : String) : Bool := isMoneyShapeCore s.data

theorem digitChar_isDigit (n : Nat) : (digitChar n).isDigit = true := by
  unfold digitChar
  have h : n % 10 < 10 := Nat.mod_lt _ (by norm_num)
  set m := n % 10 with hm
  interval_cases m <;> decide

theorem natDecAux_digits : ∀ fuel n : Nat, ∀ c ∈ natDecAux fuel n, c.isDigit = true := by
  intro fuel
  induction fuel with
  | zero => intro n c hc; simp [natDecAux] at hc
  | succ fuel ih =>
    intro n c hc
    unfold natDecAux at hc
    by_cases h : n < 10
    · rw [if_pos h] at hc
      rw [List.mem_singleton.mp hc]
      exact digitChar_isDigit n
    · rw [if_neg h] at hc
      rcases List.mem_append.mp hc with h1 | h2
      · exact ih _ c h1
      · rw [List.mem_singleton.mp h2]
        exact digitChar_isDigit n

theorem natDigits_digits (n : Nat) : ∀ c ∈ natDigits n, c.isDigit = true :=
  natDecAux_digits (n + 1) n

theorem natDigits_ne_nil (n : Nat) : natDigits n ≠ [] := by
  unfold natDigits natDecAux
  by_cases h : n < 10
  · simp [h]
  · simp [h]

theorem padTwo_digits (r : Nat) : ∀ c ∈ padTwo r, c.isDigit = true := by
  intro c hc
  rcases List.mem_cons.mp hc with rfl | hc
  · exact digitChar_isDigit _
  · rw [List.mem_singleton.mp hc]
    exact digitChar_isDigit _

/-- On a value with a nonnegative numerator and magnitude below `10 ^ 21`,
`toFixed2` takes its unsigned fixed-notation branch. -/
theorem toFixed2_of_nonneg {d : Dec} (h : 0 ≤ d.num)
    (hth : d.num.natAbs < 10 ^ (21 + d.exp)) :
    toFixed2 d =
      ⟨natDigits (roundCents d / 100) ++ '.' :: padTwo (roundCents d % 100)⟩ := by
  unfold toFixed2
  rw [if_neg (not_lt.mpr h), if_neg (not_le.mpr hth)]

/-- Applying an optional exponent part never flips a nonnegative numerator. -/
theorem withExp_nonneg {d : Dec} (h : 0 ≤ d.num) (rest : List Char) :
    0 ≤ (withExp d rest).num := by
  have happ : ∀ z : Int, 0 ≤ (Dec.applyExp d z).num := by
    intro z
    unfold Dec.applyExp
    by_cases hz : 0 ≤ z
    · rw [if_pos hz]
      exact mul_nonneg h (pow_nonneg (by norm_num) _)
    · rw [if_neg hz]
      exact h
  unfold withExp
  rcases jsParseExp rest with - | z
  · exact h
  · exact happ z

/-- Any character list starting with a digit parses successfully. -/
theorem jsParseFloatCore_isSome_of_digit {c : Char} (hc : c.isDigit = true)
    (rest : List Char) : (jsParseFloatCore (c :: rest)).isSome = true := by
  have hip : (c :: rest).takeWhile Char.isDigit = c :: rest.takeWhile Char.isDigit :=
    List.takeWhile_cons_of_pos hc
  unfold jsParseFloatCore
  simp only [hip]
  split
  · rw [if_neg (by simp)]
    rfl
  · rw [if_neg (by simp)]
    rfl

/-- The significand digit list is never empty. -/
theorem sigDigits_ne_nil (ds : List Char) : sigDigits ds ≠ [] := by
  unfold sigDigits
  split
  · simp
  case _ h => simpa using h

/-- The significand digits of a digit list are digits. -/
theorem sigDigits_digits {ds : List Char} (h : ∀ c ∈ ds, c.isDigit = true) :
    ∀ c ∈ sigDigits ds, c.isDigit = true := by
  intro c hc
  unfold sigDigits at hc
  split at hc
  · rw [List.mem_singleton.mp hc]
    decide
  · rw [List.mem_reverse] at hc
    have hmem : c ∈ ds.reverse := (List.dropWhile_sublist _).subset hc
    exact h c (List.mem_reverse.mp hmem)

/-- The exponential-notation output starts with a digit. -/
theorem toStringExpCore_head (m exp : Nat) :
    ∃ c rest2, toStringExpCore m exp = c :: rest2 ∧ c.isDigit = true := by
  have hdig := sigDigits_digits (natDigits_digits m)
  rcases hsig : sigDigits (natDigits m) with - | ⟨c, - | ⟨c2, r2⟩⟩
  · exact absurd hsig (sigDigits_ne_nil (natDigits m))
  · have he : toStringExpCore m exp =
        c :: 'e' :: '+' :: natDigits ((natDigits m).length - 1 - exp) := by
      unfold toStringExpCore
      rw [hsig]
    refine ⟨c, _, he, hdig c ?_⟩
    rw [hsig]
    exact List.mem_cons_self _ _
  · have he : toStringExpCore m exp =
        c :: '.' :: (c2 :: r2) ++ 'e' :: '+' :: natDigits ((natDigits m).length - 1 - exp) := by
      unfold toStringExpCore
      rw [hsig]
    exact ⟨c, '.' :: c2 :: r2 ++ 'e' :: '+' :: natDigits ((natDigits m).length - 1 - exp),
      he, hdig c (by rw [hsig]; exact List.mem_cons_self _ _)⟩

/-- Whatever sign and notation branch `toFixed2` takes, its output is an
optional minus sign followed by a digit-headed tail. -/
theorem toFixed2_core_shape (d : Dec) :
    ∃ c rest2, c.isDigit = true ∧
      (toFixed2 d = ⟨c :: rest2⟩ ∨ toFixed2 d = ⟨'-' :: c :: rest2⟩) := by
  have hcore : ∃ c rest2, c.isDigit = true ∧
      (if 10 ^ (21 + d.exp) ≤ d.num.natAbs then toStringExpCore d.num.natAbs d.exp
        else natDigits (roundCents d / 100) ++ '.' :: padTwo (roundCents d % 100)) =
        c :: rest2 := by
    by_cases hth : 10 ^ (21 + d.exp) ≤ d.num.natAbs
    · obtain ⟨c, rest2, heq, hc⟩ := toStringExpCore_head d.num.natAbs d.exp
      exact ⟨c, rest2, hc, by rw [if_pos hth, heq]⟩
    · rcases hnd : natDigits (roundCents d / 100) with - | ⟨c, cs⟩
      · exact absurd hnd (natDigits_ne_nil (roundCents d / 100))
      · refine ⟨c, cs ++ '.' :: padTwo (roundCents d % 100), ?_, ?_⟩
        · refine natDigits_digits (roundCents d / 100) c ?_
          rw [hnd]
          exact List.mem_cons_self _ _
        · rw [if_neg hth]
          rfl
  obtain ⟨c, rest2, hc, heq⟩ := hcore
  refine ⟨c, rest2, hc, ?_⟩
  simp only [toFixed2]
  rw [heq]
  by_cases hneg : d.num < 0
  · rw [if_pos hneg]
    exact Or.inr rfl
  · rw [if_neg hneg]
    exact Or.inl rfl

/-- A string starting with anything but a sign character is parsed by the
unsigned core. -/
theorem jsParseFloat_cons {c : Char} (hc1 : c ≠ '-') (hc2 : c ≠ '+') (r : List Char) :
    jsParseFloat ⟨c :: r⟩ = jsParseFloatCore (c :: r) := by
  unfold jsParseFloat
  split
  case _ r' heq =>
    exact absurd (List.cons.inj heq).1 hc1
  case _ r' heq =>
    exact absurd (List.cons.inj heq).1 hc2
  case _ => rfl

/-- Digits are neither sign character. -/
theorem isDigit_ne_sign {c : Char} (hc : c.isDigit = true) : c ≠ '-' ∧ c ≠ '+' := by
  constructor <;> rintro rfl <;> simp at hc

/-- Whatever `jsParseFloatCore` returns has a nonnegative numerator. -/
theorem jsParseFloatCore_nonneg {cs : List Char} {d : Dec}
    (h : jsParseFloatCore cs = some d) : 0 ≤ d.num := by
  unfold jsParseFloatCore at h
  split at h <;> simp only [] at h <;> split at h
  · exact absurd h (by simp)
  · obtain rfl := (Option.some.inj h).symm
    exact withExp_nonneg (by positivity) _
  · exact absurd h (by simp)
  · obtain rfl := (Option.some.inj h).symm
    exact withExp_nonneg (by positivity) _

/-- A string made of digits and dots (in particular, any sanitizer output)
parses, after the `|| 0` fallback, to a value with nonnegative numerator. -/
theorem jsParseFloat_nonneg {s : String} (h : ∀ c ∈ s.data, isNumChar c = true) :
    0 ≤ ((jsParseFloat s).getD Dec.zero).num := by
  rcases hs : s.data with - | ⟨c, r⟩
  · have : jsParseFloat s = none := by
      have : s = ⟨[]⟩ := by rw [← hs]
      rw [this]
      rfl
    rw [this]
    exact le_refl 0
  · have hc : isNumChar c = true := by
      refine h c ?_
      rw [hs]
      exact List.mem_cons_self _ _
    have hsign : c ≠ '-' ∧ c ≠ '+' := by
      rcases Bool.or_eq_true_iff.mp hc with hd | hdot
      · exact isDigit_ne_sign hd
      · obtain rfl := decide_eq_true_iff.mp hdot
        constructor <;> decide
    have hrw : jsParseFloat s = jsParseFloatCore (c :: r) := by
      have : s = ⟨c :: r⟩ := by rw [← hs]
      rw [this]
      exact jsParseFloat_cons hsign.1 hsign.2 r
    rw [hrw]
    rcases hp : jsParseFloatCore (c :: r) with - | d
    · exact le_refl 0
    · exact jsParseFloatCore_nonneg hp

/-- The output of `toFixed2` on a nonnegative value below `10 ^ 21` matches
the money regex. -/
theorem isMoneyShape_toFixed2 {d : Dec} (h : 0 ≤ d.num)
    (hth : d.num.natAbs < 10 ^ (21 + d.exp)) :
    isMoneyShape (toFixed2 d) = true := by
  rw [toFixed2_of_nonneg h hth]
  set m := roundCents d with hm
  have hds := natDigits_digits (m / 100)
  have hne := natDigits_ne_nil (m / 100)
  show isMoneyShapeCore (natDigits (m / 100) ++ '.' :: padTwo (m % 100)) = true
  have htake :
      (natDigits (m / 100) ++ '.' :: padTwo (m % 100)).takeWhile Char.isDigit =
        natDigits (m / 100) := by
    rw [List.takeWhile_append_of_pos hds]
    simp
  have hdrop :
      (natDigits (m / 100) ++ '.' :: padTwo (m % 100)).dropWhile Char.isDigit =
        '.' :: padTwo (m % 100) := by
    rw [List.dropWhile_append_of_pos hds]
    simp
  unfold isMoneyShapeCore
  rw [hdrop, htake]
  simp only [padTwo]
  simp [digitChar_isDigit, hne]

/-- A minus-signed string parses by negating the unsigned core. -/
theorem jsParseFloat_neg_cons (r : List Char) :
    jsParseFloat ⟨'-' :: r⟩ = (jsParseFloatCore r).map (fun d => ⟨-d.num, d.exp⟩) := rfl

/-- The output of `toFixed2` always parses back successfully — in either
notation branch it is an optional minus sign and a digit-headed tail: this is
the unreachability of the `isNaN(numericValue)` branch of `handleBlur`. -/
theorem jsParseFloat_toFixed2_isSome (d : Dec) :
    (jsParseFloat (toFixed2 d)).isSome = true := by
  obtain ⟨c, rest2, hc, hor | hor⟩ := toFixed2_core_shape d
  · rw [hor, jsParseFloat_cons (isDigit_ne_sign hc).1 (isDigit_ne_sign hc).2]
    exact jsParseFloatCore_isSome_of_digit hc rest2
  · rw [hor, jsParseFloat_neg_cons]
    have hm := jsParseFloatCore_isSome_of_digit hc rest2
    rcases hp : jsParseFloatCore (c :: rest2) with - | e
    · rw [hp] at hm
      exact absurd hm (by simp)
    · rfl

/-- The commit-time formatter's output always parses back successfully. -/
theorem jsParseFloat_commitFormat_isSome (s : String) :
    (jsParseFloat (commitFormat s)).isSome = true :=
  jsParseFloat_toFixed2_isSome _

/-! ### Soundness of the exact-decimal arithmetic

Each `Dec` operation used by the embedding computes, on denoted rationals,
exactly the real-number operation the JavaScript code performs. -/

theorem Dec.toRat_add (a b : Dec) : (a.add b).toRat = a.toRat + b.toRat := by
  unfold Dec.toRat Dec.add
  rw [div_add_div _ _ (pow_ne_zero _ (by norm_num)) (pow_ne_zero _ (by norm_num)),
    ← pow_add]
  congr 1
  push_cast
  ring

theorem Dec.toRat_sub (a b : Dec) : (a.sub b).toRat = a.toRat - b.toRat := by
  unfold Dec.sub
  rw [Dec.toRat_add]
  unfold Dec.toRat
  push_cast
  ring

theorem Dec.blt_iff (a b : Dec) : a.blt b = true ↔ a.toRat < b.toRat := by
  simp only [Dec.blt, decide_eq_true_iff, Dec.toRat]
  rw [div_lt_div_iff₀ (by positivity) (by positivity)]
  norm_cast

/-- `roundCents` is the half-away-from-zero rounding to cents of the denoted
rational's absolute value. -/
theorem roundCents_eq (d : Dec) : (roundCents d : ℤ) = ⌊|d.toRat| * 100 + 1 / 2⌋ := by
  have habs : |d.toRat| * 100 + 1 / 2 =
      ((200 * d.num.natAbs + 10 ^ d.exp : ℕ) : ℚ) / ((2 * 10 ^ d.exp : ℕ) : ℚ) := by
    unfold Dec.toRat
    rw [abs_div, abs_of_pos (a := (10 : ℚ) ^ d.exp) (by positivity)]
    push_cast [Int.cast_natAbs]
    field_simp
    ring
  rw [habs, Rat.floor_natCast_div_natCast]
  rfl

/-- The value of the commit-time formatter's zero fallback. -/
theorem toFixed2_zero : toFixed2 Dec.zero = "0.00" := by decide

/-- Reading a dynamically updated field: the updated slot holds the new
state, every other slot is untouched. -/
theorem Fields.get_set (f : Fields) (k : FieldKey) (v : FieldState) (j : FieldKey) :
    (f.set k v).get j = if j = k then v else f.get j := by
  cases j <;> cases k <;> simp [Fields.get, Fields.set]

/-! ### The claims -/

/-- C1 (amended): `amountFinanced` changes only when a commit resolves
successfully, and whenever it is recomputed it equals `calculateTotal` over
the then-current values of all five fields — including fields that are
currently `Saving` or whose last attempt ended in `Error`, whose attempted
values therefore do flow into the total (the original claim's exclusion of
such fields does not hold, see the counterexample). -/
theorem claim_C1 (s : AppState) (e : Event) :
    (step s e).amountFinanced = s.amountFinanced ∨
    ∃ i k fv, e = Event.resolve i ∧ s.pending.get? i = some (k, fv) ∧
      saveRejects k fv = false ∧
      (step s e).amountFinanced = calculateTotal (step s e).fields := by
  cases e with
  | focus k => exact Or.inl rfl
  | change k raw => exact Or.inl rfl
  | blur k =>
    left
    simp only [step, handleBlurStart]
    by_cases h1 : some (commitFormat ((s.fields.get k).value)) = s.originalValueRef
    · rw [if_pos h1]
      by_cases h2 : (s.fields.get k).value ≠ commitFormat ((s.fields.get k).value)
      · rw [if_pos h2]
      · rw [if_neg h2]
    · rw [if_neg h1]
  | resolve i =>
    rcases hp : s.pending.get? i with - | ⟨k, fv⟩
    · left
      simp only [step]
      rw [hp]
    · have hstep : step s (.resolve i) =
          resolveCommit k fv { s with pending := s.pending.eraseIdx i } := by
        simp only [step]
        rw [hp]
      by_cases hrej : saveRejects k fv = true
      · left
        rw [hstep]
        unfold resolveCommit
        rw [if_pos hrej]
      · right
        refine ⟨i, k, fv, rfl, hp, by simpa using hrej, ?_⟩
        rw [hstep]
        unfold resolveCommit
        rw [if_neg hrej]

/-- C1: counterexample to the original claim.  After Sales Price's commit of
"9999.00" is rejected (the field ends in `Error` holding the attempted
value), a successful commit of Gap recomputes the total as $7,699.00 — which
incorporates the `Error` field's rejected 9999.00 — instead of $25,237.00,
the total over Sales Price's last committed value 27537.00. -/
theorem claim_C1_counterexample :
    ((run initState [.focus .salesPrice, .change .salesPrice "9999", .blur .salesPrice,
        .resolve 0, .focus .gap, .change .gap "200", .blur .gap]).fields.get
        .salesPrice).hasError = true ∧
    (run initState [.focus .salesPrice, .change .salesPrice "9999", .blur .salesPrice,
        .resolve 0, .focus .gap, .change .gap "200", .blur .gap,
        .resolve 0]).amountFinanced = "$7,699.00" ∧
    calculateTotal
        { salesPrice := ⟨"27537.00", false, false⟩, downPayment := ⟨"2500.00", false, false⟩,
          warranty := ⟨"0.00", false, false⟩, cpi := ⟨"0.00", false, false⟩,
          gap := ⟨"200.00", false, false⟩ } = "$25,237.00" ∧
    ("$7,699.00" : String) ≠ "$25,237.00" := by decide

/-- C2 (amended): a blur whose formatted value equals the focus-time snapshot
issues no remote save and leaves every field's `isSaving` and `hasError`
flags unchanged (so a field that was `Idle` at focus ends `Idle`; a field
already in `Error` keeps its flag — the original claim's unconditional
"ends `Idle`" does not hold, see the counterexample); the field's value is
replaced by the formatted value, and when the two agree textually the state
is left entirely unchanged. -/
theorem claim_C2 (s : AppState) (k : FieldKey)
    (h : s.originalValueRef = some (commitFormat ((s.fields.get k).value))) :
    (step s (.blur k)).pending = s.pending ∧
    (∀ j, ((step s (.blur k)).fields.get j).isSaving = (s.fields.get j).isSaving ∧
      ((step s (.blur k)).fields.get j).hasError = (s.fields.get j).hasError) ∧
    ((step s (.blur k)).fields.get k).value = commitFormat ((s.fields.get k).value) ∧
    ((s.fields.get k).value = commitFormat ((s.fields.get k).value) →
      step s (.blur k) = s) := by
  have hstep : step s (.blur k) =
      if (s.fields.get k).value = commitFormat ((s.fields.get k).value) then s
      else { s with fields := s.fields.set k { s.fields.get k with value := commitFormat ((s.fields.get k).value) } } := by
    simp only [step, handleBlurStart]
    rw [← h, if_pos rfl]
    by_cases hv : (s.fields.get k).value = commitFormat ((s.fields.get k).value)
    · rw [if_neg (by simpa using hv), if_pos hv]
    · rw [if_pos hv, if_neg hv]
  by_cases hv : (s.fields.get k).value = commitFormat ((s.fields.get k).value)
  · rw [hstep, if_pos hv]
    exact ⟨rfl, fun j => ⟨rfl, rfl⟩, hv, fun _ => rfl⟩
  · rw [hstep, if_neg hv]
    refine ⟨rfl, fun j => ?_, ?_, fun hc => absurd hc hv⟩
    · rw [Fields.get_set]
      by_cases hj : j = k
      · rw [if_pos hj, hj]
        exact ⟨rfl, rfl⟩
      · rw [if_neg hj]
        exact ⟨rfl, rfl⟩
    · rw [Fields.get_set, if_pos rfl]

/-- C2: counterexample to the original claim.  Sales Price is in `Error`
(value "9999.00" after a rejected commit); focusing it and blurring it with
no change takes the no-op path — no save is issued (`pending` stays empty)
— but `hasError` remains `true`, whereas the claim requires the status to
end `Idle` with `hasError = false`. -/
theorem claim_C2_counterexample :
    ((run initState [.focus .salesPrice, .change .salesPrice "9999", .blur .salesPrice,
        .resolve 0, .focus .salesPrice, .blur .salesPrice]).fields.get
        .salesPrice).hasError = true ∧
    (run initState [.focus .salesPrice, .change .salesPrice "9999", .blur .salesPrice,
        .resolve 0, .focus .salesPrice, .blur .salesPrice]).pending = [] := by decide

/-- C2: witness for the amended theorem at a concrete no-op blur (focus then
blur of CPI with no intervening change). -/
theorem claim_C2_witness :
    (step (step initState (.focus .cpi)) (.blur .cpi)).pending
        = (step initState (.focus .cpi)).pending ∧
    ((step (step initState (.focus .cpi)) (.blur .cpi)).fields.get .cpi).hasError
        = ((step initState (.focus .cpi)).fields.get .cpi).hasError ∧
    step (step initState (.focus .cpi)) (.blur .cpi) = step initState (.focus .cpi) :=
  have h := claim_C2 (step initState (.focus .cpi)) .cpi (by decide)
  ⟨h.1, (h.2.1 .cpi).2, h.2.2.2 (by decide)⟩

/-- C3: on commit failure the failing field keeps the attempted formatted
value, ends with `hasError = true` and `isSaving = false`, and
`amountFinanced` is not recomputed. -/
theorem claim_C3 (s : AppState) (i : Nat) (k : FieldKey) (fv : String)
    (hp : s.pending.get? i = some (k, fv)) (hrej : saveRejects k fv = true) :
    ((step s (.resolve i)).fields.get k).value = fv ∧
    ((step s (.resolve i)).fields.get k).hasError = true ∧
    ((step s (.resolve i)).fields.get k).isSaving = false ∧
    (step s (.resolve i)).amountFinanced = s.amountFinanced := by
  have hstep : step s (.resolve i) =
      resolveCommit k fv { s with pending := s.pending.eraseIdx i } := by
    simp only [step]
    rw [hp]
  rw [hstep]
  unfold resolveCommit
  rw [if_pos hrej]
  refine ⟨?_, ?_, ?_, rfl⟩ <;> rw [Fields.get_set, if_pos rfl]

/-- C3: witness — spec scenario B.  Sales Price edited to "9999" and
blurred; resolving the commit rejects, the field shows "9999.00" with the
error flag, and the total is unchanged. -/
theorem claim_C3_witness :
    ((step (run initState [.focus .salesPrice, .change .salesPrice "9999",
        .blur .salesPrice]) (.resolve 0)).fields.get .salesPrice).value = "9999.00" ∧
    ((step (run initState [.focus .salesPrice, .change .salesPrice "9999",
        .blur .salesPrice]) (.resolve 0)).fields.get .salesPrice).hasError = true ∧
    ((step (run initState [.focus .salesPrice, .change .salesPrice "9999",
        .blur .salesPrice]) (.resolve 0)).fields.get .salesPrice).isSaving = false ∧
    (step (run initState [.focus .salesPrice, .change .salesPrice "9999",
        .blur .salesPrice]) (.resolve 0)).amountFinanced =
      (run initState [.focus .salesPrice, .change .salesPrice "9999",
        .blur .salesPrice]).amountFinanced :=
  claim_C3 _ 0 .salesPrice "9999.00" (by decide) (by decide)

/-- C4 (amended): the sanitizer is idempotent on every input string holding
at most one dot.  (On inputs with two or more dots it is not — the
multi-dot collapse skips the two-digit truncation, see the
counterexample.) -/
theorem claim_C4 {s : String} (h : s.data.count '.' ≤ 1) :
    parseCurrencyInput (parseCurrencyInput s) = parseCurrencyInput s :=
  parseCurrencyInput_idem h

/-- C4: counterexample to the original claim — sanitize is not idempotent on
"1.2.34": the first pass collapses the dots to "1.234" without truncating,
the second pass truncates to "1.23". -/
theorem claim_C4_counterexample :
    parseCurrencyInput "1.2.34" = "1.234" ∧
    parseCurrencyInput (parseCurrencyInput "1.2.34") = "1.23" ∧
    parseCurrencyInput (parseCurrencyInput "1.2.34") ≠ parseCurrencyInput "1.2.34" := by
  decide

/-- C4: witness for the amended theorem on a concrete one-dot input with
currency garbage and a long fractional run. -/
theorem claim_C4_witness :
    ("$1,234.567" : String).data.count '.' ≤ 1 ∧
      parseCurrencyInput (parseCurrencyInput "$1,234.567") =
        parseCurrencyInput "$1,234.567" :=
  ⟨by decide, claim_C4 (by decide)⟩

/-- C5 (amended): the sanitizer's output always consists of characters in
`[0-9.]` only and holds at most one dot; the fractional run is truncated
(not rounded) to at most two digits whenever the input holds at most one dot
— but not on multi-dot inputs, whose post-dot runs are concatenated
untruncated (see the counterexample). -/
theorem claim_C5 (s : String) :
    (∀ c ∈ (parseCurrencyInput s).data, isNumChar c = true) ∧
    (parseCurrencyInput s).data.count '.' ≤ 1 ∧
    (s.data.count '.' ≤ 1 → fracLen (parseCurrencyInput s).data ≤ 2) :=
  ⟨parseCurrencyInput_mem s, parseCurrencyInput_count s,
    fun h => parseCurrencyInput_fracLen h⟩

/-- C5: counterexample to the original claim — on the two-dot input
"7.8.999" the sanitizer emits "7.8999", which has four digits after the
dot. -/
theorem claim_C5_counterexample :
    parseCurrencyInput "7.8.999" = "7.8999" ∧
    fracLen ("7.8999" : String).data = 4 := by decide

/-- C5: witness for the amended theorem at a concrete one-dot input. -/
theorem claim_C5_witness :
    isNumChar '3' = true ∧
    ("12a.3456" : String).data.count '.' ≤ 1 ∧
    fracLen (parseCurrencyInput "12a.3456").data ≤ 2 :=
  ⟨(claim_C5 "12a.3456").1 '3' (by decide), by decide,
    (claim_C5 "12a.3456").2.2 (by decide)⟩

/-- C6 (amended): `onFocus` stores the focused field's current value in the
single shared snapshot ref, touching nothing else; the ref is shared, so a
subsequent focus — on any field, including a different one — overwrites it
with that field's value (the original claim's per-field retention does not
hold, see the counterexample). -/
theorem claim_C6 (s : AppState) (k k' : FieldKey) :
    (step s (.focus k)).originalValueRef = some ((s.fields.get k).value) ∧
    (step s (.focus k)).fields = s.fields ∧
    (step s (.focus k)).pending = s.pending ∧
    (step s (.focus k)).amountFinanced = s.amountFinanced ∧
    (step (step s (.focus k)) (.focus k')).originalValueRef =
      some ((s.fields.get k').value) :=
  ⟨rfl, rfl, rfl, rfl, rfl⟩

/-- C6: counterexample to the original claim — focusing Sales Price stores
"27537.00", but a subsequent focus on Down Payment overwrites the shared
snapshot with "2500.00". -/
theorem claim_C6_counterexample :
    (step initState (.focus .salesPrice)).originalValueRef = some "27537.00" ∧
    (step (step initState (.focus .salesPrice)) (.focus .downPayment)).originalValueRef
        = some "2500.00" ∧
    some ("2500.00" : String) ≠ some "27537.00" := by decide

/-- C7: the simulated remote save rejects exactly when the field is
`salesPrice` and the committed numeric value is below 10000; every
commit-formatted value parses successfully, so the `isNaN` branch is
unreachable and the business rule is the only rejection path. -/
theorem claim_C7 (k : FieldKey) (s : String) :
    (jsParseFloat (commitFormat s)).isSome = true ∧
    (saveRejects k (commitFormat s) = true ↔
      k = FieldKey.salesPrice ∧
        ((jsParseFloat (commitFormat s)).getD Dec.zero).toRat < 10000) := by
  refine ⟨jsParseFloat_commitFormat_isSome s, ?_⟩
  obtain ⟨d, hd⟩ := Option.isSome_iff_exists.mp (jsParseFloat_commitFormat_isSome s)
  unfold saveRejects
  rw [hd]
  simp only [Option.getD_some, Bool.and_eq_true, decide_eq_true_iff]
  rw [Dec.blt_iff]
  have h4 : Dec.toRat ⟨10000, 0⟩ = 10000 := by
    unfold Dec.toRat
    norm_num
  rw [h4]

/-- C8: every change event stores the sanitized raw text as the field's value
and clears the error flag synchronously, leaving the saving flag, the other
fields, the in-flight commits and the total untouched — in particular the
clearing happens before, and independently of, any pending commit's
resolution. -/
theorem claim_C8 (s : AppState) (k : FieldKey) (raw : String) :
    ((step s (.change k raw)).fields.get k).value = parseCurrencyInput raw ∧
    ((step s (.change k raw)).fields.get k).hasError = false ∧
    ((step s (.change k raw)).fields.get k).isSaving = (s.fields.get k).isSaving ∧
    (∀ j, j ≠ k → (step s (.change k raw)).fields.get j = s.fields.get j) ∧
    (step s (.change k raw)).pending = s.pending ∧
    (step s (.change k raw)).amountFinanced = s.amountFinanced := by
  have hget : ∀ j, (step s (.change k raw)).fields.get j =
      if j = k then { s.fields.get k with value := parseCurrencyInput raw, hasError := false }
      else s.fields.get j := by
    intro j
    exact Fields.get_set s.fields k _ j
  refine ⟨?_, ?_, ?_, fun j hj => ?_, rfl, rfl⟩
  · rw [hget, if_pos rfl]
  · rw [hget, if_pos rfl]
  · rw [hget, if_pos rfl]
  · rw [hget, if_neg hj]

/-- C8: witness at a concrete change event carrying garbage characters. -/
theorem claim_C8_witness :
    ((step initState (.change .cpi "7a.51x9")).fields.get .cpi).value
        = parseCurrencyInput "7a.51x9" ∧
    (step initState (.change .cpi "7a.51x9")).fields.get .gap
        = initState.fields.get .gap :=
  ⟨(claim_C8 initState .cpi "7a.51x9").1,
    (claim_C8 initState .cpi "7a.51x9").2.2.2.1 .gap (by decide)⟩

/-- C9 (amended): on canonical inputs (characters in `[0-9.]` only) whose
parsed value is below `10 ^ 21` — the fixed-notation domain of ECMAScript
`toFixed` — the commit-time formatter emits a string matching the money
regex: ungrouped, one dot, exactly two fractional digits; empty or
unparsable input collapses to "0.00".  At or above `10 ^ 21` the original
claim fails: `toFixed` returns `ToString` of the value in exponential
notation (see the counterexample). -/
theorem claim_C9 (s : String) :
    ((∀ c ∈ s.data, isNumChar c = true) →
      ((jsParseFloat s).getD Dec.zero).num.natAbs <
          10 ^ (21 + ((jsParseFloat s).getD Dec.zero).exp) →
      isMoneyShape (commitFormat s) = true) ∧
    (jsParseFloat s = none → commitFormat s = "0.00") := by
  constructor
  · intro h hth
    exact isMoneyShape_toFixed2 (jsParseFloat_nonneg h) hth
  · intro h
    unfold commitFormat
    rw [h]
    exact toFixed2_zero

/-- C9: counterexample to the original claim — the canonical 22-digit input
denoting `10 ^ 21` is committed as "1e+21" (ECMAScript `toFixed` falls back
to exponential `ToString` at that magnitude), which does not match the money
regex. -/
theorem claim_C9_counterexample :
    (∀ c ∈ ("1000000000000000000000" : String).data, isNumChar c = true) ∧
    commitFormat "1000000000000000000000" = "1e+21" ∧
    isMoneyShape "1e+21" = false := by decide

/-- C9: witness — "7." (value 7, below the threshold) formats to a
money-shaped string, and the unparsable "." collapses to "0.00". -/
theorem claim_C9_witness :
    isMoneyShape (commitFormat "7.") = true ∧ commitFormat "." = "0.00" :=
  ⟨(claim_C9 "7.").1 (by decide) (by decide), (claim_C9 ".").2 (by decide)⟩

/-- C10: the total is `salesPrice − downPayment + warranty + cpi + gap` over
the tolerantly parsed field values (the function is total by construction —
garbage parses to zero), formatted as `en-US` USD currency; on the spec's
example fields it yields "$27,700.00". -/
theorem claim_C10 :
    (∀ f : Fields, ∃ d : Dec, calculateTotal f = formatUSD d ∧
      d.toRat = (safeParseFloat f.salesPrice.value).toRat
        - (safeParseFloat f.downPayment.value).toRat
        + (safeParseFloat f.warranty.value).toRat
        + (safeParseFloat f.cpi.value).toRat
        + (safeParseFloat f.gap.value).toRat) ∧
    calculateTotal
        { salesPrice := ⟨"30000.00", false, false⟩, downPayment := ⟨"3000.00", false, false⟩,
          warranty := ⟨"500.00", false, false⟩, cpi := ⟨"0.00", false, false⟩,
          gap := ⟨"200.00", false, false⟩ } = "$27,700.00" := by
  constructor
  · intro f
    refine ⟨_, rfl, ?_⟩
    rw [Dec.toRat_add, Dec.toRat_add, Dec.toRat_add, Dec.toRat_sub]
  · decide

end DealStructure
